import Mathlib

/-!
Verification of the aploune library (linkable ring signatures and stealth
addresses, `ring.go` and `stealth.go`) against its specification.

The library is written over an external elliptic-curve layer (`CurvePoint`,
SHA-256) that the specification treats as an abstract interface (spec section
4.1).  We embed that interface as a structure `Aploune.CurveModel` carrying the
algebraic laws the specification fixes, and translate the two Go source files
into executable Lean functions over an arbitrary model.  Go `big.Int` values
become `Int`; Go `Mod` (Euclidean remainder, non-negative for a positive
modulus) becomes `Int.emod`, written `%`.  Functions that can panic in Go
(out-of-range indexing, nil dereference) return `Option`, with `none` marking
the panic.  In-place `big.Int` mutation of arguments (`pk.Mod(pk, N)` in
`Ring.Signature`, `cj.Mod(cj, N)` in `Ring.VerifySignature`) is made explicit:
those functions also return the final values of the mutated memory.
-/

namespace Aploune

/-- Modelled from the spec: the curve interface of section 4.1
(`CurvePoint`, `Order`, `Add`, `ScalarMult`, `ScalarBaseMult`,
`NewCurvePointFromHash`, `Marshal`, `IsOnCurve`) together with SHA-256 are
external to the two source files under review.  The fields below are the
operations the core consumes, and the laws are the algebraic properties the
spec fixes for them: scalars act modulo the group order `N`, scalar action is
additive and multiplicative, and (spec 4.5) a well-implemented curve primitive
cannot produce an off-curve point from a scalar-base multiplication. -/
structure CurveModel (P : Type) where
  N : Int
  N_pos : 0 < N
  add : P → P → P
  smul : Int → P → P
  base : P
  hashToCurve : List Nat → P
  marshal : P → List Nat
  sha256 : List Nat → List Nat
  isOnCurve : P → Bool
  smul_emod : ∀ (k : Int) (Q : P), smul (k % N) Q = smul k Q
  add_smul_smul : ∀ (a b : Int) (Q : P), add (smul a Q) (smul b Q) = smul (a + b) Q
  smul_smul : ∀ (a b : Int) (Q : P), smul a (smul b Q) = smul (a * b) Q
  onCurve_base : ∀ k : Int, isOnCurve (smul k base) = true

variable {P : Type}

/-- Modelled from the spec: `scalar_base_mult(k) = [k]G` (spec 4.1). -/
def CurveModel.scalarBaseMult (C : CurveModel P) (k : Int) : P :=
  C.smul k C.base

/-- Modelled from the spec: `point.parameter_point_add(t, c) = [t]G + [c]·point`
(spec 4.1); the implementation `ParameterPointAdd` is part of the external
curve layer. -/
def CurveModel.ParameterPointAdd (C : CurveModel P) (pk : P) (t c : Int) : P :=
  C.add (C.scalarBaseMult t) (C.smul c pk)

/-- Modelled from the spec: `point.hash_point_add(y, t, c) = [t]·point + [c]·y`
(spec 4.1); the implementation `HashPointAdd` is part of the external curve
layer. -/
def CurveModel.HashPointAdd (C : CurveModel P) (hp y : P) (t c : Int) : P :=
  C.add (C.smul t hp) (C.smul c y)

/-- Big-endian interpretation of a byte string as a non-negative integer,
as Go's `big.Int.SetBytes`. -/
def bytesToInt (l : List Nat) : Int :=
  l.foldl (fun acc b => acc * 256 + (b : Int)) 0

/-- `var messageHash [32]byte; copy(messageHash[:], message)`: the first
32 bytes of the message, zero-padded on the right to length 32. -/
def pad32 (m : List Nat) : List Nat :=
  m.take 32 ++ List.replicate (32 - m.length) 0

/-- A Ring is a number of public/private key pairs (ring.go). -/
structure Ring (P : Type) where
  PubKeys : List P
  PrivKeys : List Int
  deriving DecidableEq

/-- A ring signature: the key image `Tau` and the list `c_0, t_0, ...`
(ring.go, `RingSignature`). -/
structure RingSignature (P : Type) where
  Tau : P
  Ctlist : List Int
  deriving DecidableEq

/-- The loop of `Ring.Signature` (ring.go lines 123-147): iterates over the
public keys in index order, carrying `(ctlist, csum, hashAcc)`. -/
def signLoop (C : CurveModel P) (hashp hashSP : P) (signer : Nat)
    (rnd : Nat → Int × Int) (ri : Int) :
    List P → Nat → List Int → Int → List Nat → List Int × Int × List Nat
  | [], _, ct, csum, acc => (ct, csum, acc)
  | pkj :: pubs, j, ct, csum, acc =>
    if j = signer then
      let a := C.scalarBaseMult ri
      let b := C.smul ri hashp
      signLoop C hashp hashSP signer rnd ri pubs (j + 1) (ct ++ [0, 0]) csum
        (C.sha256 (acc ++ (C.marshal a ++ C.marshal b)))
    else
      let cj := (rnd j).1
      let tj := (rnd j).2
      let a := C.ParameterPointAdd pkj tj cj
      let b := C.HashPointAdd hashp hashSP tj cj
      signLoop C hashp hashSP signer rnd ri pubs (j + 1) (ct ++ [cj, tj]) (csum + cj)
        (C.sha256 (acc ++ (C.marshal a ++ C.marshal b)))

/-- `Ring.Signature` (ring.go lines 100-164).  The random draws of the loop
are supplied by `rnd` (the pair drawn at a decoy index) and `ri` (the draw at
the signer index).  Returns `none` when the Go code would panic (signer index
out of range leaves `ri` nil and makes `ctlist[2*signer]` out of bounds).
The second component of the result is the final value of the caller's `pk`
argument, which the Go code reduces in place (`pk.Mod(pk, N)`, line 110). -/
def Ring.Signature (C : CurveModel P) (r : Ring P) (pk : Int) (message : List Nat)
    (signer : Nat) (rnd : Nat → Int × Int) (ri : Int) :
    Option (RingSignature P × Int) :=
  let N := C.N
  let messageHash := pad32 message
  let hashp := C.hashToCurve messageHash
  let pk1 := pk % N
  let hashSP := C.smul pk1 hashp
  let hashAcc0 := C.sha256 ((C.marshal hashp).take 32 ++ C.marshal hashSP)
  let n := r.PubKeys.length
  if signer < n then
    let st := signLoop C hashp hashSP signer rnd ri r.PubKeys 0 [] 0 hashAcc0
    let hashb := bytesToInt st.2.2 % N
    let csum1 := st.2.1 % N
    let c := (hashb - csum1) % N
    let cx := (c * pk1) % N
    let ti := (ri - cx) % N
    let ct1 := (st.1.set (2 * signer) c).set (2 * signer + 1) ti
    some (⟨hashSP, ct1⟩, pk1)
  else none

/-- The loop of `Ring.VerifySignature` (ring.go lines 202-220): consumes two
scalars of `ctlist` per public key, carrying `(csum, hashAcc)`; `none` models
the index-out-of-range panic when `ctlist` runs out.  The third component of
the result is the final content of the consumed part of `ctlist`, which the Go
code reduces in place (`cj.Mod(cj, N)`, `tj.Mod(tj, N)`). -/
def verifyLoop (C : CurveModel P) (hashp tau : P) :
    List P → List Int → Int → List Nat → Option (Int × List Nat × List Int)
  | [], ct, csum, acc => some (csum, acc, ct)
  | pkj :: pubs, ct, csum, acc =>
    match ct with
    | cr :: tr :: rest =>
      let cj := cr % C.N
      let tj := tr % C.N
      let yc := C.smul cj pkj
      let gt := C.add (C.scalarBaseMult tj) yc
      let tauc := C.smul cj tau
      let Hp := C.add (C.smul tj hashp) tauc
      match verifyLoop C hashp tau pubs rest ((csum + cj) % C.N)
          (C.sha256 (acc ++ (C.marshal gt ++ C.marshal Hp))) with
      | some (csum1, acc1, rest1) => some (csum1, acc1, cj :: tj :: rest1)
      | none => none
    | _ => none

/-- `Ring.VerifySignature` (ring.go lines 185-226).  Returns `none` when the
Go code would panic (too short `ctlist`); otherwise `some (accepted, ct)`
where `ct` is the final content of the signature's `ctlist` after the in-place
reductions. -/
def Ring.VerifySignature (C : CurveModel P) (r : Ring P) (message : List Nat)
    (sigma : RingSignature P) : Option (Bool × List Int) :=
  let hashp := C.hashToCurve (pad32 message)
  let hashAcc0 := C.sha256 ((C.marshal hashp).take 32 ++ C.marshal sigma.Tau)
  match verifyLoop C hashp sigma.Tau r.PubKeys sigma.Ctlist 0 hashAcc0 with
  | some (csum, acc, ct1) =>
    let hashout := bytesToInt acc % C.N
    let csum1 := csum % C.N
    some (csum1 == hashout, ct1)
  | none => none

/-- The loop of `Ring.PublicKeysHashed` (ring.go lines 65-67). -/
def pkHashLoop (C : CurveModel P) : List P → List Nat → List Nat
  | [], out => out
  | pk :: rest, out => pkHashLoop C rest (C.sha256 (out ++ C.marshal pk))

/-- `Ring.PublicKeysHashed` (ring.go lines 62-70): chained SHA-256 over the
marshalled public keys, starting from 32 zero bytes. -/
def Ring.PublicKeysHashed (C : CurveModel P) (r : Ring P) : List Nat :=
  pkHashLoop C r.PubKeys (List.replicate 32 0)

/-- The claim's reading of `PublicKeysHashed` (spec 4.7), written as a left
fold to be compared with the source's loop. -/
def publicKeysHashedSpec (C : CurveModel P) (pubs : List P) : List Nat :=
  pubs.foldl (fun h pk => C.sha256 (h ++ C.marshal pk)) (List.replicate 32 0)

/-- The loop of `Ring.PubKeyIndex` (ring.go lines 89-93). -/
def pubKeyIndexLoop [DecidableEq P] : List P → P → Nat → Int
  | [], _, _ => -1
  | q :: rest, pk, i => if q = pk then (i : Int) else pubKeyIndexLoop rest pk (i + 1)

/-- `Ring.PubKeyIndex` (ring.go lines 87-97): index of the first occurrence of
a public key, `-1` when absent. -/
def Ring.PubKeyIndex [DecidableEq P] (r : Ring P) (pk : P) : Int :=
  pubKeyIndexLoop r.PubKeys pk 0

/-- `isValidSecretKey` (stealth.go lines 52-64): `1 <= secret < N`. -/
def isValidSecretKey (C : CurveModel P) (secret : Int) : Bool :=
  if secret < 1 then false
  else if C.N ≤ secret then false
  else true

/-- `derivePublicKey` (stealth.go lines 134-137). -/
def derivePublicKey (C : CurveModel P) (privateKey : Int) : P :=
  C.scalarBaseMult privateKey

/-- `StealthPubDerive` (stealth.go lines 78-94); `none` is Go's nil result. -/
def StealthPubDerive (C : CurveModel P) (mpk : P) (secret : List Nat) : Option P :=
  if C.isOnCurve mpk then
    let X := bytesToInt (C.sha256 secret)
    let Y := derivePublicKey C X
    some (C.add mpk Y)
  else none

/-- `StealthPrivDerive` (stealth.go lines 108-128); `none` is Go's nil result. -/
def StealthPrivDerive (C : CurveModel P) (msk : Int) (secret : List Nat) : Option Int :=
  if isValidSecretKey C msk then
    let X := bytesToInt (C.sha256 secret)
    let ssk := (msk + X) % C.N
    if C.isOnCurve (derivePublicKey C ssk) then some ssk else none
  else none

/-- `deriveSharedSecret` (stealth.go lines 149-152): the first 32 bytes of the
marshalled ECDH point. -/
def deriveSharedSecret (C : CurveModel P) (myPriv : Int) (theirPub : P) : List Nat :=
  (C.marshal (C.smul myPriv theirPub)).take 32

/-- `StealthAddress` (stealth.go lines 12-15). -/
structure StealthAddress (P : Type) where
  Public : P
  Nonce : Int
  deriving DecidableEq

/-- `PrivateStealthAddress` (stealth.go lines 18-22). -/
structure PrivateStealthAddress (P : Type) where
  Public : P
  Nonce : Int
  Private : Int
  deriving DecidableEq

/-- `StealthSession` (stealth.go lines 27-33). -/
structure StealthSession (P : Type) where
  MyPublic : P
  TheirPublic : P
  SharedSecret : List Nat
  TheirAddresses : List (StealthAddress P)
  MyAddresses : List (PrivateStealthAddress P)
  deriving DecidableEq

/-- The error cases of `NewStealthSession` (stealth.go lines 161-177):
an invalid secret, a nil public key, or a failed stealth-public derivation at
a given loop index. -/
inductive SessionError
  | InvalidSecret
  | NullPublic
  | PubDeriveFailed (i : Nat)
  deriving DecidableEq

/-- Helper for `natBytes`: structural recursion on a fuel bound, so that the
function reduces inside the kernel.  `fuel ≥ n` always holds at the call
sites, and then the fuel never runs out because `n / 256 < n` for `n > 0`. -/
def natBytesAux : Nat → Nat → List Nat
  | 0, _ => []
  | _, 0 => []
  | fuel + 1, n + 1 => natBytesAux fuel ((n + 1) / 256) ++ [(n + 1) % 256]

/-- Minimal big-endian byte string of a natural number, as Go's
`big.Int.Bytes`: no leading zeros, and `0` encodes as the empty string. -/
def natBytes (n : Nat) : List Nat :=
  natBytesAux n n

/-- `nonce.Bytes()` for a Go `big.Int`: the bytes of the absolute value. -/
def intBytes (z : Int) : List Nat :=
  natBytes z.natAbs

/-- The loop of `NewStealthSession` (stealth.go lines 170-185), iterating
`addressCount` times from index `i`.  The outer `Option` marks the panic that
Go would hit if `StealthPrivDerive` returned nil (the nil flows unchecked into
`derivePublicKey`, line 182); `Except` carries the handled error of a failed
`StealthPubDerive` (lines 175-177). -/
def sessionLoop (C : CurveModel P) (mySecret : Int) (theirPublic : P)
    (sharedSecret : List Nat) (nonceOffset : Int) :
    Nat → Nat → List (StealthAddress P) → List (PrivateStealthAddress P) →
    Option (Except SessionError (List (StealthAddress P) × List (PrivateStealthAddress P)))
  | _, 0, their, mine => some (Except.ok (their, mine))
  | i, k + 1, their, mine =>
    let nonce := nonceOffset + (i : Int)
    let secret := sharedSecret ++ intBytes nonce
    match StealthPubDerive C theirPublic secret with
    | none => some (Except.error (SessionError.PubDeriveFailed i))
    | some tsp =>
      match StealthPrivDerive C mySecret secret with
      | none => none
      | some msk1 =>
        sessionLoop C mySecret theirPublic sharedSecret nonceOffset (i + 1) k
          (their ++ [⟨tsp, nonce⟩])
          (mine ++ [⟨derivePublicKey C msk1, nonce, msk1⟩])

/-- `NewStealthSession` (stealth.go lines 157-196).  `theirPublic = none` is a
nil pointer argument; the outer `Option` of the result marks a Go panic, the
`Except` layer the returned error. -/
def NewStealthSession (C : CurveModel P) (mySecret : Int) (theirPublic : Option P)
    (nonceOffset addressCount : Int) :
    Option (Except SessionError (StealthSession P)) :=
  if isValidSecretKey C mySecret = false then
    some (Except.error SessionError.InvalidSecret)
  else
    match theirPublic with
    | none => some (Except.error SessionError.NullPublic)
    | some tp =>
      let shared := deriveSharedSecret C mySecret tp
      match sessionLoop C mySecret tp shared nonceOffset 0 addressCount.toNat [] [] with
      | none => none
      | some (Except.error e) => some (Except.error e)
      | some (Except.ok (their, mine)) =>
        some (Except.ok ⟨derivePublicKey C mySecret, tp, shared, their, mine⟩)

instance {ε α : Type} [DecidableEq ε] [DecidableEq α] : DecidableEq (Except ε α) := fun x y =>
  match x, y with
  | Except.ok a, Except.ok b =>
    if h : a = b then isTrue (by rw [h])
    else isFalse (fun he => h (Except.ok.inj he))
  | Except.error a, Except.error b =>
    if h : a = b then isTrue (by rw [h])
    else isFalse (fun he => h (Except.error.inj he))
  | Except.ok _, Except.error _ => isFalse (fun he => Except.noConfusion he)
  | Except.error _, Except.ok _ => isFalse (fun he => Except.noConfusion he)

/-! A small concrete instance of the curve interface, used to evaluate the
theorems on explicit inputs: the additive group of `ZMod 5` tagged with a
Boolean on-curve flag, base point `(1, true)`, and a toy byte-level hash. -/

/-- The point type of the concrete instance. -/
abbrev CPoint : Type := ZMod 5 × Bool

/-- A concrete `CurveModel` over `CPoint` with group order 5. -/
def concreteModel : CurveModel CPoint where
  N := 5
  N_pos := by norm_num
  add := fun p q => (p.1 + q.1, p.2 && q.2)
  smul := fun k p => ((k : ZMod 5) * p.1, p.2)
  base := (1, true)
  hashToCurve := fun _ => (1, true)
  marshal := fun p => [p.1.val, cond p.2 1 0]
  sha256 := fun l => [l.foldl (fun a b => (a + b) % 251) 7]
  isOnCurve := fun p => p.2
  smul_emod := by
    intro k Q
    have h : ((k % (5 : Int) : Int) : ZMod 5) = ((k : Int) : ZMod 5) := by
      have h5 : ((5 : Nat) : Int) = (5 : Int) := by norm_num
      rw [← h5, ZMod.intCast_mod]
    simp only [h]
  add_smul_smul := by
    intro a b Q
    refine Prod.ext ?_ ?_
    · push_cast
      ring
    · exact Bool.and_self Q.2
  smul_smul := by
    intro a b Q
    refine Prod.ext ?_ ?_
    · push_cast
      ring
    · rfl
  onCurve_base := fun _ => rfl

/-! Arithmetic helper lemmas about the Euclidean remainder. -/

lemma emod_self_emod (a N : Int) : a % N % N = a % N :=
  Int.emod_emod_of_dvd a dvd_rfl

lemma emod_add_left (N a b : Int) : (a % N + b) % N = (a + b) % N := by
  rw [Int.add_emod, emod_self_emod, ← Int.add_emod]

lemma emod_add_right (N a b : Int) : (a + b % N) % N = (a + b) % N := by
  rw [Int.add_emod, emod_self_emod, ← Int.add_emod]

lemma isValidSecretKey_iff (C : CurveModel P) (s : Int) :
    isValidSecretKey C s = true ↔ 1 ≤ s ∧ s < C.N := by
  unfold isValidSecretKey
  split_ifs <;> simp <;> omega

/-- Scalars congruent modulo the group order act identically. -/
lemma CurveModel.smul_congr (C : CurveModel P) {a b : Int} (Q : P)
    (h : a % C.N = b % C.N) : C.smul a Q = C.smul b Q := by
  rw [← C.smul_emod a, h, C.smul_emod]

/-- C2, helper: the algebraic identity behind stealth derivation. -/
lemma sbm_add_split (C : CurveModel P) (a b : Int) :
    C.scalarBaseMult ((a + b) % C.N) = C.add (C.scalarBaseMult a) (C.scalarBaseMult b) := by
  unfold CurveModel.scalarBaseMult
  rw [C.add_smul_smul, C.smul_emod]

/-- C2: for every valid master secret `msk` and byte string `secret`, the
public key of the derived stealth secret (`StealthPrivDerive`) equals the
stealth public key derived from `[msk]G` (`StealthPubDerive`); equivalently
`[(msk + SHA256(secret)) mod N]G = [msk]G + [SHA256(secret)]G`. -/
theorem stealth_derive_agreement (P : Type) (C : CurveModel P) (msk : Int)
    (secret : List Nat) (h1 : 1 ≤ msk) (h2 : msk < C.N) :
    (StealthPrivDerive C msk secret).map (derivePublicKey C)
      = StealthPubDerive C (derivePublicKey C msk) secret
    ∧ C.scalarBaseMult ((msk + bytesToInt (C.sha256 secret)) % C.N)
      = C.add (C.scalarBaseMult msk) (C.scalarBaseMult (bytesToInt (C.sha256 secret))) := by
  have hval : isValidSecretKey C msk = true := (isValidSecretKey_iff C msk).mpr ⟨h1, h2⟩
  have honc : ∀ k : Int, C.isOnCurve (derivePublicKey C k) = true := fun k => C.onCurve_base k
  refine ⟨?_, sbm_add_split C msk (bytesToInt (C.sha256 secret))⟩
  simp only [StealthPrivDerive, StealthPubDerive, hval, honc, if_true, Option.map_some']
  exact congrArg some (sbm_add_split C msk (bytesToInt (C.sha256 secret)))

/-- C2, witness: the agreement evaluated on the concrete curve model with
`msk = 1` and `secret = "abc"`. -/
theorem stealth_derive_agreement_witness :
    (1 ≤ (1 : Int) ∧ (1 : Int) < concreteModel.N)
    ∧ (StealthPrivDerive concreteModel 1 [97, 98, 99]).map (derivePublicKey concreteModel)
        = StealthPubDerive concreteModel (derivePublicKey concreteModel 1) [97, 98, 99] :=
  ⟨by decide, (stealth_derive_agreement CPoint concreteModel 1 [97, 98, 99]
    (by decide) (by decide)).1⟩

/-- C9, helper: the hashing loop is a left fold. -/
lemma pkHashLoop_foldl (C : CurveModel P) (pubs : List P) :
    ∀ out : List Nat,
      pkHashLoop C pubs out = pubs.foldl (fun h pk => C.sha256 (h ++ C.marshal pk)) out := by
  induction pubs with
  | nil => intro out; rfl
  | cons pk rest ih => intro out; simp only [pkHashLoop, List.foldl]; exact ih _

/-- C9: `PublicKeysHashed` computes exactly the left fold over the ring's
public keys in stored order, starting from 32 zero bytes and hashing
`h || marshal(pk)` at each step. -/
theorem publicKeysHashed_is_fold (P : Type) (C : CurveModel P) (r : Ring P) :
    r.PublicKeysHashed C = publicKeysHashedSpec C r.PubKeys := by
  unfold Ring.PublicKeysHashed publicKeysHashedSpec
  exact pkHashLoop_foldl C r.PubKeys _

/-- C10, helper: full characterisation of the index-search loop. -/
lemma pubKeyIndexLoop_spec [DecidableEq P] (pk : P) (l : List P) :
    ∀ i : Nat,
      (pk ∉ l → pubKeyIndexLoop l pk i = -1)
      ∧ (pk ∈ l → ∃ k : Nat, pubKeyIndexLoop l pk i = ((i + k : Nat) : Int)
          ∧ l.get? k = some pk ∧ ∀ j < k, l.get? j ≠ some pk) := by
  induction l with
  | nil =>
    intro i
    exact ⟨fun _ => rfl, fun h => absurd h (List.not_mem_nil pk)⟩
  | cons q rest ih =>
    intro i
    constructor
    · intro hnot
      have hq : ¬ q = pk := fun h => hnot (h ▸ List.mem_cons_self q rest)
      simp only [pubKeyIndexLoop, if_neg hq]
      exact (ih (i + 1)).1 (fun h => hnot (List.mem_cons_of_mem q h))
    · intro hmem
      by_cases hq : q = pk
      · refine ⟨0, ?_, ?_, ?_⟩
        · simp [pubKeyIndexLoop, hq]
        · simp [hq]
        · intro j hj; omega
      · have hrest : pk ∈ rest := by
          rcases List.mem_cons.mp hmem with h | h
          · exact absurd h.symm hq
          · exact h
        obtain ⟨k, hk1, hk2, hk3⟩ := (ih (i + 1)).2 hrest
        refine ⟨k + 1, ?_, ?_, ?_⟩
        · simp only [pubKeyIndexLoop, if_neg hq, hk1]
          congr 1
          omega
        · simpa using hk2
        · intro j hj
          cases j with
          | zero => simp [hq]
          | succ j1 =>
            intro hc
            exact hk3 j1 (by omega) (by simpa using hc)

/-- C10: `PubKeyIndex` returns the smallest index at which the key occurs,
and `-1` exactly when the key does not occur. -/
theorem pubKeyIndex_first_match (P : Type) [DecidableEq P] (r : Ring P) (pk : P) :
    (r.PubKeyIndex pk = -1 ↔ pk ∉ r.PubKeys)
    ∧ (∀ i : Nat, r.PubKeyIndex pk = (i : Int) →
        r.PubKeys.get? i = some pk ∧ ∀ j < i, r.PubKeys.get? j ≠ some pk)
    ∧ (pk ∈ r.PubKeys → ∃ i : Nat, r.PubKeyIndex pk = (i : Int)) := by
  have hspec := pubKeyIndexLoop_spec pk r.PubKeys 0
  refine ⟨⟨?_, ?_⟩, ?_, ?_⟩
  · intro hres hmem
    obtain ⟨k, hk1, _, _⟩ := hspec.2 hmem
    rw [Ring.PubKeyIndex] at hres
    rw [hres] at hk1
    omega
  · intro hnot
    exact hspec.1 hnot
  · intro i hres
    by_cases hmem : pk ∈ r.PubKeys
    · obtain ⟨k, hk1, hk2, hk3⟩ := hspec.2 hmem
      rw [Ring.PubKeyIndex] at hres
      rw [hres] at hk1
      have hik : i = k := by omega
      exact hik ▸ ⟨hk2, hk3⟩
    · have := hspec.1 hmem
      rw [Ring.PubKeyIndex] at hres
      rw [hres] at this
      omega
  · intro hmem
    obtain ⟨k, hk1, _, _⟩ := hspec.2 hmem
    exact ⟨k, by simpa using hk1⟩

/-- C10, witness: on a concrete two-key ring the loop finds the second key. -/
theorem pubKeyIndex_first_match_witness :
    Ring.PubKeyIndex (⟨[((1 : ZMod 5), true), ((2 : ZMod 5), true)], []⟩ : Ring CPoint)
        ((2 : ZMod 5), true) ≠ -1 :=
  fun h =>
    (pubKeyIndex_first_match CPoint
        (⟨[((1 : ZMod 5), true), ((2 : ZMod 5), true)], []⟩ : Ring CPoint)
        ((2 : ZMod 5), true)).1.mp h (by decide)

/-- C4: on a one-key ring and a signature whose `ct` list is empty (length
0 ≠ 2·1), `VerifySignature` reads `ctlist[0]` out of range: the Go code
panics (modelled by `none`) instead of rejecting with `false`. -/
theorem verify_short_ctlist_panics :
    Ring.VerifySignature concreteModel ⟨[((1 : ZMod 5), true)], []⟩ (List.replicate 32 0)
      ⟨((1 : ZMod 5), true), []⟩ = none := by
  decide

/-- C8: `Signature` does not reject a message whose length is not 32: here a
0-byte message is zero-padded and signed successfully. -/
theorem signature_accepts_short_message :
    (Ring.Signature concreteModel ⟨[((1 : ZMod 5), true)], []⟩ 1 [] 0
      (fun _ => (1, 1)) 1).isSome = true := by
  decide

/-- C5, counterexample: `Signature` reduces its secret-key argument in place:
called with `pk = 5` (the group order of the concrete model) it leaves the
caller's `pk` holding `0`, not `5`; and `VerifySignature` reduces the
signature's `ct` entries in place: entries `[7, 8]` are left holding `[2, 3]`. -/
theorem signature_purity_counterexample :
    (Ring.Signature concreteModel ⟨[((1 : ZMod 5), true)], []⟩ 5 [] 0
        (fun _ => (1, 1)) 1).map Prod.snd = some 0
    ∧ ((0 : Int) ≠ 5)
    ∧ (Ring.VerifySignature concreteModel ⟨[((1 : ZMod 5), true)], []⟩ (List.replicate 32 0)
        ⟨((1 : ZMod 5), true), [7, 8]⟩).map Prod.snd = some [2, 3]
    ∧ (([2, 3] : List Int) ≠ [7, 8]) := by
  refine ⟨by decide, by decide, by decide, by decide⟩

/-- C5, helper: the verification loop returns the `ct` prefix unchanged when
every entry is already reduced modulo the order. -/
lemma verifyLoop_reduced_ct (C : CurveModel P) (hashp tau : P) (pubs : List P) :
    ∀ (ct : List Int) (csum : Int) (acc : List Nat),
      (∀ c ∈ ct, 0 ≤ c ∧ c < C.N) →
      verifyLoop C hashp tau pubs ct csum acc = none
      ∨ ∃ cs ac, verifyLoop C hashp tau pubs ct csum acc = some (cs, ac, ct) := by
  induction pubs with
  | nil => intro ct csum acc _; exact Or.inr ⟨csum, acc, rfl⟩
  | cons pk rest ih =>
    intro ct csum acc hct
    match ct with
    | [] => exact Or.inl rfl
    | [c] => exact Or.inl rfl
    | c :: t :: rest1 =>
      have hc : c % C.N = c :=
        Int.emod_eq_of_lt (hct c (by simp)).1 (hct c (by simp)).2
      have ht : t % C.N = t :=
        Int.emod_eq_of_lt (hct t (by simp)).1 (hct t (by simp)).2
      have hrest : ∀ x ∈ rest1, 0 ≤ x ∧ x < C.N := fun x hx => hct x (by simp [hx])
      simp only [verifyLoop, hc, ht]
      rcases ih rest1 ((csum + c) % C.N)
          (C.sha256 (acc ++ (C.marshal (C.add (C.scalarBaseMult t) (C.smul c pk))
            ++ C.marshal (C.add (C.smul t hashp) (C.smul c tau))))) hrest with
        hnone | ⟨cs, ac, hsome⟩
      · left
        rw [hnone]
      · right
        exact ⟨cs, ac, by rw [hsome]⟩

/-- C5, amended: `Signature` leaves the caller's secret `pk` unchanged
whenever `pk` is already reduced (`0 ≤ pk < N`), and `VerifySignature` leaves
the signature's `ct` entries unchanged whenever they are already reduced;
otherwise they are overwritten in place with their residues modulo `N`. -/
theorem signature_verify_pure_when_reduced (P : Type) (C : CurveModel P) (r : Ring P)
    (pk : Int) (m : List Nat) (s : Nat) (rnd : Nat → Int × Int) (ri : Int)
    (sigma : RingSignature P)
    (hpk : 0 ≤ pk ∧ pk < C.N)
    (hct : ∀ c ∈ sigma.Ctlist, 0 ≤ c ∧ c < C.N) :
    (Ring.Signature C r pk m s rnd ri).map Prod.snd
      = (Ring.Signature C r pk m s rnd ri).map (fun _ => pk)
    ∧ (Ring.VerifySignature C r m sigma).map Prod.snd
      = (Ring.VerifySignature C r m sigma).map (fun _ => sigma.Ctlist) := by
  constructor
  · by_cases hs : s < r.PubKeys.length
    · simp [Ring.Signature, hs, Int.emod_eq_of_lt hpk.1 hpk.2]
    · simp [Ring.Signature, hs]
  · unfold Ring.VerifySignature
    rcases verifyLoop_reduced_ct C (C.hashToCurve (pad32 m)) sigma.Tau r.PubKeys
        sigma.Ctlist 0
        (C.sha256 ((C.marshal (C.hashToCurve (pad32 m))).take 32 ++ C.marshal sigma.Tau))
        hct with h | ⟨cs, ac, h⟩
    · simp only [h]
      rfl
    · simp only [h]
      rfl

/-- C5, witness: the amended purity statement evaluated on the concrete
model with a reduced secret key. -/
theorem signature_verify_pure_witness :
    (Ring.Signature concreteModel ⟨[((1 : ZMod 5), true)], []⟩ 1 [] 0
        (fun _ => (1, 1)) 1).map Prod.snd
      = (Ring.Signature concreteModel ⟨[((1 : ZMod 5), true)], []⟩ 1 [] 0
        (fun _ => (1, 1)) 1).map (fun _ => 1) :=
  (signature_verify_pure_when_reduced CPoint concreteModel
    ⟨[((1 : ZMod 5), true)], []⟩ 1 [] 0 (fun _ => (1, 1)) 1
    ⟨((1 : ZMod 5), true), [1, 2]⟩ (by decide) (by decide)).1

/-- C6: `NewStealthSession` returns the `InvalidSecret` error whenever the
secret is not in `[1, N)` (checked first, for any public-key argument), the
`NullPublic` error when the secret is valid but the public key is nil, and
when a per-index stealth-public derivation fails (the public key is off
curve), the whole construction fails with an error naming the failing index
(always index 0, since the on-curve check does not depend on the index). -/
theorem new_stealth_session_errors (P : Type) (C : CurveModel P) (mySecret : Int)
    (tp : P) (tpO : Option P) (off cnt : Int) :
    (¬ (1 ≤ mySecret ∧ mySecret < C.N) →
      NewStealthSession C mySecret tpO off cnt
        = some (Except.error SessionError.InvalidSecret))
    ∧ ((1 ≤ mySecret ∧ mySecret < C.N) →
      NewStealthSession C mySecret none off cnt
        = some (Except.error SessionError.NullPublic))
    ∧ ((1 ≤ mySecret ∧ mySecret < C.N) → C.isOnCurve tp = false → 1 ≤ cnt →
      NewStealthSession C mySecret (some tp) off cnt
        = some (Except.error (SessionError.PubDeriveFailed 0))) := by
  refine ⟨?_, ?_, ?_⟩
  · intro hinv
    have hval : isValidSecretKey C mySecret = false := by
      rcases h : isValidSecretKey C mySecret with _ | _
      · rfl
      · exact absurd ((isValidSecretKey_iff C mySecret).mp h) hinv
    simp [NewStealthSession, hval]
  · intro hv
    have hval : isValidSecretKey C mySecret = true := (isValidSecretKey_iff C mySecret).mpr hv
    simp [NewStealthSession, hval]
  · intro hv hoff hcnt
    have hval : isValidSecretKey C mySecret = true := (isValidSecretKey_iff C mySecret).mpr hv
    obtain ⟨k, hk⟩ : ∃ k, cnt.toNat = k + 1 := ⟨cnt.toNat - 1, by omega⟩
    simp [NewStealthSession, hval, hk, sessionLoop, StealthPubDerive, hoff]

/-- C6, witness: the three error cases evaluated on the concrete model. -/
theorem new_stealth_session_errors_witness :
    NewStealthSession concreteModel 0 (none : Option CPoint) 10 2
      = some (Except.error SessionError.InvalidSecret)
    ∧ NewStealthSession concreteModel 1 (none : Option CPoint) 10 2
      = some (Except.error SessionError.NullPublic)
    ∧ NewStealthSession concreteModel 1 (some ((3 : ZMod 5), false)) 10 2
      = some (Except.error (SessionError.PubDeriveFailed 0)) :=
  ⟨(new_stealth_session_errors CPoint concreteModel 0 ((3 : ZMod 5), false) none 10 2).1
      (by decide),
   (new_stealth_session_errors CPoint concreteModel 1 ((3 : ZMod 5), false) none 10 2).2.1
      (by decide),
   (new_stealth_session_errors CPoint concreteModel 1 ((3 : ZMod 5), false) none 10 2).2.2
      (by decide) (by decide) (by decide)⟩

/-- C7, helper: running the session loop with accumulated lists only prepends
the accumulators to the result. -/
lemma sessionLoop_shift (C : CurveModel P) (ms : Int) (tp : P) (sh : List Nat) (off : Int) :
    ∀ (k i : Nat) (their : List (StealthAddress P)) (mine : List (PrivateStealthAddress P)),
      sessionLoop C ms tp sh off i k their mine
        = (sessionLoop C ms tp sh off i k [] []).map
            (fun e => e.map (fun p => (their ++ p.1, mine ++ p.2))) := by
  intro k
  induction k with
  | zero => intro i their mine; simp [sessionLoop, Except.map]
  | succ k ih =>
    intro i their mine
    simp only [sessionLoop]
    cases hpub : StealthPubDerive C tp (sh ++ intBytes (off + (i : Int))) with
    | none => simp [Except.map]
    | some tsp =>
      cases hpriv : StealthPrivDerive C ms (sh ++ intBytes (off + (i : Int))) with
      | none => rfl
      | some m1 =>
        dsimp only
        conv_lhs => rw [ih]
        conv_rhs => rw [ih]
        cases hrec : sessionLoop C ms tp sh off (i + 1) k [] [] with
        | none => rfl
        | some e =>
          cases e with
          | error er => rfl
          | ok p => simp [Except.map]

/-- C7, helper: a successful run of the session loop produces lists of length
`k` whose nonces count up from the starting index and whose private stealth
addresses satisfy `public = [private]G`. -/
lemma sessionLoop_ok_char (C : CurveModel P) (ms : Int) (tp : P) (sh : List Nat) (off : Int) :
    ∀ (k i : Nat) (T : List (StealthAddress P)) (M : List (PrivateStealthAddress P)),
      sessionLoop C ms tp sh off i k [] [] = some (Except.ok (T, M)) →
      T.length = k ∧ M.length = k
      ∧ (∀ (j : Nat) a, T.get? j = some a → a.Nonce = off + (i : Int) + (j : Int))
      ∧ (∀ (j : Nat) a, M.get? j = some a → a.Nonce = off + (i : Int) + (j : Int)
          ∧ a.Public = derivePublicKey C a.Private) := by
  intro k
  induction k with
  | zero =>
    intro i T M h
    simp only [sessionLoop, Option.some.injEq, Except.ok.injEq, Prod.mk.injEq] at h
    obtain ⟨hT, hM⟩ := h
    subst hT
    subst hM
    refine ⟨rfl, rfl, ?_, ?_⟩ <;> intro j a h <;> simp at h
  | succ k ih =>
    intro i T M h
    simp only [sessionLoop] at h
    rcases hpub : StealthPubDerive C tp (sh ++ intBytes (off + (i : Int))) with _ | tsp <;>
      rw [hpub] at h
    · simp at h
    rcases hpriv : StealthPrivDerive C ms (sh ++ intBytes (off + (i : Int))) with _ | m1 <;>
      rw [hpriv] at h
    · simp at h
    dsimp only at h
    rw [sessionLoop_shift] at h
    rcases hrec : sessionLoop C ms tp sh off (i + 1) k [] [] with _ | e <;> rw [hrec] at h
    · simp at h
    rcases e with er | p
    · simp [Except.map] at h
    rcases p with ⟨T1, M1⟩
    simp only [Option.map_some', Except.map, Option.some.injEq, Except.ok.injEq,
      Prod.mk.injEq, List.singleton_append] at h
    obtain ⟨hT, hM⟩ := h
    subst hT
    subst hM
    obtain ⟨hL1, hL2, hN1, hN2⟩ := ih (i + 1) T1 M1 hrec
    refine ⟨by simp [hL1], by simp [hL2], ?_, ?_⟩
    · intro j a hja
      cases j with
      | zero =>
        simp only [List.get?] at hja
        injection hja with hja
        rw [← hja]
        push_cast
        ring
      | succ j1 =>
        simp only [List.get?] at hja
        have := hN1 j1 a hja
        rw [this]
        push_cast
        ring
    · intro j a hja
      cases j with
      | zero =>
        simp only [List.get?] at hja
        injection hja with hja
        rw [← hja]
        exact ⟨by push_cast; ring, rfl⟩
      | succ j1 =>
        simp only [List.get?] at hja
        obtain ⟨h1, h2⟩ := hN2 j1 a hja
        exact ⟨by rw [h1]; push_cast; ring, h2⟩

/-- C7: every successful `NewStealthSession` call with a valid secret, a
non-nil public key and non-negative nonce offset and count returns a session
whose address lists both have length `count`, whose nonce fields at index `i`
both equal `nonce_offset + i`, and whose private stealth addresses satisfy
`public = [private]G`; with `count = 0` the call succeeds with empty lists. -/
theorem stealth_session_invariants (P : Type) (C : CurveModel P) (mySecret : Int)
    (tp : P) (off cnt : Int)
    (hv : 1 ≤ mySecret ∧ mySecret < C.N) (_hoff : 0 ≤ off) (hcnt : 0 ≤ cnt) :
    (∀ sess, NewStealthSession C mySecret (some tp) off cnt = some (Except.ok sess) →
      sess.TheirAddresses.length = cnt.toNat
      ∧ sess.MyAddresses.length = cnt.toNat
      ∧ (∀ (j : Nat) a, sess.TheirAddresses.get? j = some a → a.Nonce = off + (j : Int))
      ∧ (∀ (j : Nat) a, sess.MyAddresses.get? j = some a →
          a.Nonce = off + (j : Int) ∧ a.Public = C.scalarBaseMult a.Private))
    ∧ (cnt = 0 → ∃ sess,
        NewStealthSession C mySecret (some tp) off cnt = some (Except.ok sess)
        ∧ sess.TheirAddresses = [] ∧ sess.MyAddresses = []) := by
  have hval : isValidSecretKey C mySecret = true := (isValidSecretKey_iff C mySecret).mpr hv
  constructor
  · intro sess h
    simp only [NewStealthSession, hval] at h
    rcases hloop : sessionLoop C mySecret tp (deriveSharedSecret C mySecret tp) off 0
        cnt.toNat [] [] with _ | e <;> rw [hloop] at h
    · simp at h
    rcases e with er | p
    · simp at h
    rcases p with ⟨T, M⟩
    rw [if_neg (by simp : ¬(true = false))] at h
    have hsess := Except.ok.inj (Option.some.inj h)
    obtain ⟨hL1, hL2, hN1, hN2⟩ := sessionLoop_ok_char C mySecret tp
      (deriveSharedSecret C mySecret tp) off cnt.toNat 0 T M hloop
    subst hsess
    refine ⟨hL1, hL2, ?_, ?_⟩
    · intro j a hja
      have := hN1 j a hja
      rw [this]
      push_cast
      ring
    · intro j a hja
      obtain ⟨h1, h2⟩ := hN2 j a hja
      exact ⟨by rw [h1]; push_cast; ring, h2⟩
  · intro h0
    subst h0
    refine ⟨⟨derivePublicKey C mySecret, tp, deriveSharedSecret C mySecret tp, [], []⟩, ?_, rfl, rfl⟩
    simp [NewStealthSession, hval, sessionLoop]

/-- C7, witness: a zero-count session on the concrete model succeeds with
empty address lists. -/
theorem stealth_session_invariants_witness :
    ∃ sess, NewStealthSession concreteModel 1 (some ((3 : ZMod 5), true)) 10 0
      = some (Except.ok sess) ∧ sess.TheirAddresses = [] ∧ sess.MyAddresses = [] :=
  (stealth_session_invariants CPoint concreteModel 1 ((3 : ZMod 5), true) 10 0
    (by decide) (by decide) (by decide)).2 rfl

/-- Helper: a 32-byte message is its own padding. -/
lemma pad32_of_length (m : List Nat) (hm : m.length = 32) : pad32 m = m := by
  unfold pad32
  rw [hm, List.take_of_length_le (by omega)]
  simp

/-- C3: the `tau` component of every signature produced by `Signature` is the
key image `[x_s mod N] · hash_to_curve(m)`, so it depends only on the secret
and the message: two signatures by the same secret over the same 32-byte
message (with any rings, signer indices and random draws) carry equal `tau`. -/
theorem signature_tau_key_image (P : Type) (C : CurveModel P) (r1 r2 : Ring P)
    (pk : Int) (m : List Nat) (s1 s2 : Nat) (rnd1 rnd2 : Nat → Int × Int) (ri1 ri2 : Int)
    (h1 : s1 < r1.PubKeys.length) (h2 : s2 < r2.PubKeys.length) (hm : m.length = 32) :
    (r1.Signature C pk m s1 rnd1 ri1).map (fun q => q.1.Tau)
      = some (C.smul (pk % C.N) (C.hashToCurve m))
    ∧ (r1.Signature C pk m s1 rnd1 ri1).map (fun q => q.1.Tau)
      = (r2.Signature C pk m s2 rnd2 ri2).map (fun q => q.1.Tau) := by
  have hpad : pad32 m = m := pad32_of_length m hm
  have key : ∀ (r : Ring P) (s : Nat) (rnd : Nat → Int × Int) (ri : Int),
      s < r.PubKeys.length →
      (r.Signature C pk m s rnd ri).map (fun q => q.1.Tau)
        = some (C.smul (pk % C.N) (C.hashToCurve m)) := by
    intro r s rnd ri hs
    simp [Ring.Signature, hs, hpad]
  exact ⟨key r1 s1 rnd1 ri1 h1,
    by rw [key r1 s1 rnd1 ri1 h1, key r2 s2 rnd2 ri2 h2]⟩

/-- C3, witness: two concrete signatures by the same secret over the same
message, with different rings, signer indices and draws, have equal `tau`. -/
theorem signature_tau_key_image_witness :
    ((⟨[((1 : ZMod 5), true)], []⟩ : Ring CPoint).Signature concreteModel 1
        (List.replicate 32 0) 0 (fun _ => (1, 1)) 2).map (fun q => q.1.Tau)
      = ((⟨[((2 : ZMod 5), true), ((1 : ZMod 5), true)], []⟩ : Ring CPoint).Signature
          concreteModel 1 (List.replicate 32 0) 1 (fun _ => (3, 4)) 1).map (fun q => q.1.Tau) :=
  (signature_tau_key_image CPoint concreteModel ⟨[((1 : ZMod 5), true)], []⟩
    ⟨[((2 : ZMod 5), true), ((1 : ZMod 5), true)], []⟩ 1 (List.replicate 32 0) 0 1
    (fun _ => (1, 1)) (fun _ => (3, 4)) 2 1 (by decide) (by decide) (by decide)).2

/-! Scaffolding for the completeness proof (C1): explicit descriptions of the
`ct` list, the decoy scalar sum and the hash chain produced by the signing
loop, and of the state produced by the verification loop. -/

/-- The `ct` list built by the signing loop before the signer slot is
overwritten: placeholder zeros at the signer index, the drawn pair elsewhere.
Arguments: start index, number of iterations. -/
def rawCt (s : Nat) (rnd : Nat → Int × Int) : Nat → Nat → List Int
  | _, 0 => []
  | j, k + 1 => (if j = s then [0, 0] else [(rnd j).1, (rnd j).2]) ++ rawCt s rnd (j + 1) k

/-- The final `ct` list of a signature: the computed pair `(cS, tS)` at the
signer index, the drawn pair elsewhere. -/
def finalCt (s : Nat) (rnd : Nat → Int × Int) (cS tS : Int) : Nat → Nat → List Int
  | _, 0 => []
  | j, k + 1 => (if j = s then [cS, tS] else [(rnd j).1, (rnd j).2])
      ++ finalCt s rnd cS tS (j + 1) k

/-- The sum of the decoy `c_j` draws accumulated by the signing loop. -/
def decoySum (s : Nat) (rnd : Nat → Int × Int) : Nat → Nat → Int
  | _, 0 => 0
  | j, k + 1 => (if j = s then 0 else (rnd j).1) + decoySum s rnd (j + 1) k

/-- The `(a_j, b_j)` point pairs fed into the hash chain by the signing loop. -/
def sigPoints (C : CurveModel P) (hashp tau : P) (s : Nat) (rnd : Nat → Int × Int)
    (ri : Int) : Nat → List P → List (P × P)
  | _, [] => []
  | j, pk :: pubs =>
    (if j = s then (C.scalarBaseMult ri, C.smul ri hashp)
     else (C.ParameterPointAdd pk (rnd j).2 (rnd j).1,
           C.HashPointAdd hashp tau (rnd j).2 (rnd j).1))
      :: sigPoints C hashp tau s rnd ri (j + 1) pubs

/-- The hash-accumulator chain over a list of point pairs. -/
def chainHash (C : CurveModel P) : List Nat → List (P × P) → List Nat
  | acc, [] => acc
  | acc, ab :: rest => chainHash C (C.sha256 (acc ++ (C.marshal ab.1 ++ C.marshal ab.2))) rest

/-- The sum of the `c` components of the final `ct` list. -/
def ctSum (s : Nat) (rnd : Nat → Int × Int) (cS : Int) : Nat → Nat → Int
  | _, 0 => 0
  | j, k + 1 => (if j = s then cS else (rnd j).1) + ctSum s rnd cS (j + 1) k

/-- The running reduced `csum` computed by the verification loop. -/
def verCsum (Nv : Int) (s : Nat) (rnd : Nat → Int × Int) (cS : Int) :
    Nat → Nat → Int → Int
  | _, 0, cs => cs
  | j, k + 1, cs =>
    verCsum Nv s rnd cS (j + 1) k ((cs + (if j = s then cS else (rnd j).1) % Nv) % Nv)

/-- The `ct` list left behind by the verification loop: every consumed entry
reduced modulo the order. -/
def redCt (Nv : Int) (s : Nat) (rnd : Nat → Int × Int) (cS tS : Int) : Nat → Nat → List Int
  | _, 0 => []
  | j, k + 1 => (if j = s then [cS % Nv, tS % Nv] else [(rnd j).1 % Nv, (rnd j).2 % Nv])
      ++ redCt Nv s rnd cS tS (j + 1) k

/-- Characterisation of the signing loop: it appends `rawCt`, accumulates
`decoySum` and chains the hash over `sigPoints`. -/
lemma signLoop_spec (C : CurveModel P) (hashp tau : P) (s : Nat)
    (rnd : Nat → Int × Int) (ri : Int) (pubs : List P) :
    ∀ (j : Nat) (ct : List Int) (csum : Int) (acc : List Nat),
      signLoop C hashp tau s rnd ri pubs j ct csum acc
        = (ct ++ rawCt s rnd j pubs.length,
           csum + decoySum s rnd j pubs.length,
           chainHash C acc (sigPoints C hashp tau s rnd ri j pubs)) := by
  induction pubs with
  | nil => intro j ct csum acc; simp [signLoop, rawCt, decoySum, sigPoints, chainHash]
  | cons pk pubs ih =>
    intro j ct csum acc
    by_cases hj : j = s
    · simp only [signLoop, if_pos hj, List.length_cons, rawCt, decoySum, sigPoints,
        chainHash, ih, Prod.mk.injEq]
      refine ⟨by simp [List.append_assoc], by ring, by trivial⟩
    · simp only [signLoop, if_neg hj, List.length_cons, rawCt, decoySum, sigPoints,
        chainHash, ih, Prod.mk.injEq]
      refine ⟨by simp [List.append_assoc], by ring, by trivial⟩

/-- Past the signer index the raw and final `ct` lists agree. -/
lemma rawCt_eq_finalCt_of_gt (s : Nat) (rnd : Nat → Int × Int) (cS tS : Int) :
    ∀ (k j : Nat), s < j → rawCt s rnd j k = finalCt s rnd cS tS j k := by
  intro k
  induction k with
  | zero => intro j _; rfl
  | succ k ih =>
    intro j h
    have hj : ¬ j = s := by omega
    simp [rawCt, finalCt, hj, ih (j + 1) (by omega)]

/-- Overwriting the placeholder pair at the signer slot of the raw `ct` list
yields the final `ct` list. -/
lemma rawCt_set (s : Nat) (rnd : Nat → Int × Int) (cS tS : Int) :
    ∀ (k j : Nat), j ≤ s → s < j + k →
      ((rawCt s rnd j k).set (2 * (s - j)) cS).set (2 * (s - j) + 1) tS
        = finalCt s rnd cS tS j k := by
  intro k
  induction k with
  | zero => intro j h1 h2; omega
  | succ k ih =>
    intro j h1 h2
    by_cases hj : j = s
    · subst hj
      simp only [rawCt, finalCt, if_pos rfl, Nat.sub_self, Nat.mul_zero, List.cons_append,
        List.nil_append]
      simp only [List.set]
      rw [rawCt_eq_finalCt_of_gt _ rnd cS tS k (j + 1) (by omega)]
      simp
    · have hlt : j < s := by omega
      have e1 : 2 * (s - j) = 2 * (s - (j + 1)) + 1 + 1 := by omega
      simp only [rawCt, finalCt, if_neg hj, List.cons_append, List.nil_append, e1]
      simp only [List.set]
      rw [ih (j + 1) (by omega) (by omega)]

/-- Scalar-base multiplication is insensitive to reduction of the scalar. -/
lemma CurveModel.sbm_emod (C : CurveModel P) (k : Int) :
    C.scalarBaseMult (k % C.N) = C.scalarBaseMult k :=
  C.smul_emod k C.base

/-- Cancellation: adding back a value that was subtracted modulo `N`. -/
lemma sub_emod_add_emod (N ri a : Int) : ((ri - a % N) % N + a) % N = ri % N := by
  rw [emod_add_left]
  have h : ri - a % N + a = ri + N * (a / N) := by rw [Int.emod_def]; ring
  rw [h, Int.add_mul_emod_self_left]

/-- Characterisation of the verification loop on the `ct` list produced by the
signer: provided the signer-slot equations `hA`/`hB` hold (the two verifier
points at the signer index collapse to the signer's commitments), the loop
succeeds, accumulates `verCsum`, chains the hash over exactly the signer's
`sigPoints`, and leaves behind the reduced `ct` list. -/
lemma verifyLoop_finalCt (C : CurveModel P) (hashp : P) (x : Int) (s : Nat)
    (rnd : Nat → Int × Int) (ri cS tS : Int)
    (hA : C.add (C.scalarBaseMult (tS % C.N)) (C.smul (cS % C.N) (C.scalarBaseMult x))
        = C.scalarBaseMult ri)
    (hB : C.add (C.smul (tS % C.N) hashp) (C.smul (cS % C.N) (C.smul (x % C.N) hashp))
        = C.smul ri hashp) :
    ∀ (pubs : List P) (j : Nat) (rest : List Int) (csum : Int) (acc : List Nat),
      (∀ i : Nat, j + i = s → pubs.get? i = some (C.scalarBaseMult x)) →
      verifyLoop C hashp (C.smul (x % C.N) hashp) pubs
          (finalCt s rnd cS tS j pubs.length ++ rest) csum acc
        = some (verCsum C.N s rnd cS j pubs.length csum,
                chainHash C acc (sigPoints C hashp (C.smul (x % C.N) hashp) s rnd ri j pubs),
                redCt C.N s rnd cS tS j pubs.length ++ rest) := by
  intro pubs
  induction pubs with
  | nil =>
    intro j rest csum acc _
    simp [finalCt, verCsum, chainHash, sigPoints, redCt, verifyLoop]
  | cons pk pubs ih =>
    intro j rest csum acc hget
    have hget1 : ∀ i : Nat, (j + 1) + i = s → pubs.get? i = some (C.scalarBaseMult x) := by
      intro i hi
      have := hget (i + 1) (by omega)
      simpa using this
    by_cases hj : j = s
    · have hpk : pk = C.scalarBaseMult x := by
        have := hget 0 (by omega)
        simpa using this
      simp only [List.length_cons, finalCt, if_pos hj, List.cons_append, List.nil_append,
        verifyLoop, hpk, hA, hB]
      rw [ih (j + 1) rest ((csum + cS % C.N) % C.N) _ hget1]
      simp only [verCsum, redCt, sigPoints, chainHash, if_pos hj, List.cons_append,
        List.nil_append]
    · have hgt : C.add (C.scalarBaseMult ((rnd j).2 % C.N)) (C.smul ((rnd j).1 % C.N) pk)
          = C.ParameterPointAdd pk (rnd j).2 (rnd j).1 := by
        unfold CurveModel.ParameterPointAdd
        rw [C.sbm_emod ((rnd j).2), C.smul_emod ((rnd j).1) pk]
      have hHp : C.add (C.smul ((rnd j).2 % C.N) hashp)
            (C.smul ((rnd j).1 % C.N) (C.smul (x % C.N) hashp))
          = C.HashPointAdd hashp (C.smul (x % C.N) hashp) (rnd j).2 (rnd j).1 := by
        unfold CurveModel.HashPointAdd
        rw [C.smul_emod ((rnd j).2) hashp,
          C.smul_emod ((rnd j).1) (C.smul (x % C.N) hashp)]
      simp only [List.length_cons, finalCt, if_neg hj, List.cons_append, List.nil_append,
        verifyLoop, hgt, hHp]
      rw [ih (j + 1) rest ((csum + (rnd j).1 % C.N) % C.N) _ hget1]
      simp only [verCsum, redCt, sigPoints, chainHash, if_neg hj, List.cons_append,
        List.nil_append]

/-- The running reduced accumulation of the verifier equals a single final
reduction of the plain sum. -/
lemma emod_shuffle (Nv a cs T : Int) : (cs + a % Nv + T) % Nv = (cs + (a + T)) % Nv := by
  rw [show cs + a % Nv + T = a % Nv + (cs + T) from by ring, emod_add_left]
  congr 1
  ring

lemma verCsum_emod (Nv : Int) (s : Nat) (rnd : Nat → Int × Int) (cS : Int) :
    ∀ (k j : Nat) (cs : Int),
      verCsum Nv s rnd cS j k cs % Nv = (cs + ctSum s rnd cS j k) % Nv := by
  intro k
  induction k with
  | zero => intro j cs; simp [verCsum, ctSum]
  | succ k ih =>
    intro j cs
    simp only [verCsum, ctSum]
    rw [ih (j + 1), emod_add_left, emod_shuffle]

/-- Past the signer index, the `c`-component sum and the decoy sum agree. -/
lemma ctSum_eq_decoySum_of_gt (s : Nat) (rnd : Nat → Int × Int) (cS : Int) :
    ∀ (k j : Nat), s < j → ctSum s rnd cS j k = decoySum s rnd j k := by
  intro k
  induction k with
  | zero => intro j _; rfl
  | succ k ih =>
    intro j h
    have hj : ¬ j = s := by omega
    simp [ctSum, decoySum, hj, ih (j + 1) (by omega)]

/-- When the range covers the signer index, the `c`-component sum is the decoy
sum plus the signer's `c`. -/
lemma ctSum_split (s : Nat) (rnd : Nat → Int × Int) (cS : Int) :
    ∀ (k j : Nat), j ≤ s → s < j + k →
      ctSum s rnd cS j k = decoySum s rnd j k + cS := by
  intro k
  induction k with
  | zero => intro j h1 h2; omega
  | succ k ih =>
    intro j h1 h2
    by_cases hj : j = s
    · simp only [ctSum, decoySum, if_pos hj]
      rw [ctSum_eq_decoySum_of_gt s rnd cS k (j + 1) (by omega)]
      ring
    · simp only [ctSum, decoySum, if_neg hj]
      rw [ih (j + 1) (by omega) (by omega)]
      ring

/-- The verifier's recomputed `a`-point at the signer slot collapses to the
signer's commitment `[r_i]G`. -/
lemma signer_slot_a (C : CurveModel P) (x ri cS tS : Int)
    (ht : tS = (ri - (cS * (x % C.N)) % C.N) % C.N) :
    C.add (C.scalarBaseMult (tS % C.N)) (C.smul (cS % C.N) (C.scalarBaseMult x))
      = C.scalarBaseMult ri := by
  have e1 : (cS * (x % C.N)) % C.N = (cS * x) % C.N := by
    rw [Int.mul_emod, emod_self_emod, ← Int.mul_emod]
  have e2 : ((cS % C.N) * x) % C.N = (cS * x) % C.N := by
    rw [Int.mul_emod, emod_self_emod, ← Int.mul_emod]
  subst ht
  unfold CurveModel.scalarBaseMult
  rw [C.smul_smul, C.add_smul_smul]
  apply C.smul_congr
  calc ((ri - (cS * (x % C.N)) % C.N) % C.N % C.N + (cS % C.N) * x) % C.N
      = ((ri - (cS * x) % C.N) % C.N + (cS % C.N) * x) % C.N := by
        rw [emod_self_emod, e1]
    _ = ((ri - (cS * x) % C.N) % C.N + ((cS % C.N) * x) % C.N) % C.N :=
        (emod_add_right C.N ((ri - (cS * x) % C.N) % C.N) ((cS % C.N) * x)).symm
    _ = ((ri - (cS * x) % C.N) % C.N + (cS * x) % C.N) % C.N := by rw [e2]
    _ = ((ri - (cS * x) % C.N) % C.N + cS * x) % C.N :=
        emod_add_right C.N ((ri - (cS * x) % C.N) % C.N) (cS * x)
    _ = ri % C.N := sub_emod_add_emod C.N ri (cS * x)

/-- The verifier's recomputed `b`-point at the signer slot collapses to the
signer's commitment `[r_i]·Hp`. -/
lemma signer_slot_b (C : CurveModel P) (hashp : P) (x ri cS tS : Int)
    (ht : tS = (ri - (cS * (x % C.N)) % C.N) % C.N) :
    C.add (C.smul (tS % C.N) hashp) (C.smul (cS % C.N) (C.smul (x % C.N) hashp))
      = C.smul ri hashp := by
  have e3 : ((cS % C.N) * (x % C.N)) % C.N = (cS * (x % C.N)) % C.N := by
    conv_rhs => rw [Int.mul_emod]
    rw [emod_self_emod]
  subst ht
  rw [C.smul_smul, C.add_smul_smul]
  apply C.smul_congr
  calc ((ri - (cS * (x % C.N)) % C.N) % C.N % C.N + (cS % C.N) * (x % C.N)) % C.N
      = ((ri - (cS * (x % C.N)) % C.N) % C.N + (cS % C.N) * (x % C.N)) % C.N := by
        rw [emod_self_emod]
    _ = ((ri - (cS * (x % C.N)) % C.N) % C.N
          + ((cS % C.N) * (x % C.N)) % C.N) % C.N :=
        (emod_add_right C.N _ _).symm
    _ = ((ri - (cS * (x % C.N)) % C.N) % C.N + (cS * (x % C.N)) % C.N) % C.N := by
        rw [e3]
    _ = ((ri - (cS * (x % C.N)) % C.N) % C.N + cS * (x % C.N)) % C.N :=
        emod_add_right C.N _ _
    _ = ri % C.N := sub_emod_add_emod C.N ri (cS * (x % C.N))

/-- The full hash chain produced (identically) by signing and verification. -/
def sigChain (C : CurveModel P) (r : Ring P) (pk : Int) (m : List Nat) (s : Nat)
    (rnd : Nat → Int × Int) (ri : Int) : List Nat :=
  chainHash C
    (C.sha256 ((C.marshal (C.hashToCurve (pad32 m))).take 32
      ++ C.marshal (C.smul (pk % C.N) (C.hashToCurve (pad32 m)))))
    (sigPoints C (C.hashToCurve (pad32 m)) (C.smul (pk % C.N) (C.hashToCurve (pad32 m)))
      s rnd ri 0 r.PubKeys)

/-- The signer's closing scalar `c_s`. -/
def sigC (C : CurveModel P) (r : Ring P) (pk : Int) (m : List Nat) (s : Nat)
    (rnd : Nat → Int × Int) (ri : Int) : Int :=
  (bytesToInt (sigChain C r pk m s rnd ri) % C.N
    - decoySum s rnd 0 r.PubKeys.length % C.N) % C.N

/-- The signer's closing scalar `t_s`. -/
def sigT (C : CurveModel P) (r : Ring P) (pk : Int) (m : List Nat) (s : Nat)
    (rnd : Nat → Int × Int) (ri : Int) : Int :=
  (ri - (sigC C r pk m s rnd ri * (pk % C.N)) % C.N) % C.N

/-- Closed form of `Ring.Signature` for an in-range signer index. -/
lemma Signature_eq (C : CurveModel P) (r : Ring P) (pk : Int) (m : List Nat)
    (s : Nat) (rnd : Nat → Int × Int) (ri : Int) (hs : s < r.PubKeys.length) :
    r.Signature C pk m s rnd ri
      = some (⟨C.smul (pk % C.N) (C.hashToCurve (pad32 m)),
          finalCt s rnd (sigC C r pk m s rnd ri) (sigT C r pk m s rnd ri)
            0 r.PubKeys.length⟩,
        pk % C.N) := by
  have hset := rawCt_set s rnd (sigC C r pk m s rnd ri) (sigT C r pk m s rnd ri)
    r.PubKeys.length 0 (by omega) (by omega)
  simp only [Nat.sub_zero] at hset
  simp only [sigT, sigC, sigChain] at hset
  simp only [Ring.Signature, hs, if_true, signLoop_spec, List.nil_append, zero_add,
    sigT, sigC, sigChain, hset]

/-- C1, completeness of the ring signature scheme: for every ring, every
in-range signer index, every 32-byte message, every valid secret whose public
key sits at the signer index, and every outcome of the random draws made
during signing, verification of the produced signature returns `true`. -/
theorem ring_signature_complete (P : Type) (C : CurveModel P) (r : Ring P)
    (s : Nat) (m : List Nat) (x : Int) (rnd : Nat → Int × Int) (ri : Int)
    (hs : s < r.PubKeys.length) (_hm : m.length = 32) (_hx : 1 ≤ x ∧ x < C.N)
    (hpk : r.PubKeys.get? s = some (C.scalarBaseMult x)) :
    ((r.Signature C x m s rnd ri).bind fun q =>
      (r.VerifySignature C m q.1).map Prod.fst) = some true := by
  have hget : ∀ i : Nat, 0 + i = s → r.PubKeys.get? i = some (C.scalarBaseMult x) := by
    intro i hi
    have h0 : i = s := by omega
    subst h0
    exact hpk
  have hA := signer_slot_a C x ri (sigC C r x m s rnd ri) (sigT C r x m s rnd ri) rfl
  have hB := signer_slot_b C (C.hashToCurve (pad32 m)) x ri (sigC C r x m s rnd ri)
    (sigT C r x m s rnd ri) rfl
  have hver := verifyLoop_finalCt C (C.hashToCurve (pad32 m)) x s rnd ri
    (sigC C r x m s rnd ri) (sigT C r x m s rnd ri) hA hB r.PubKeys 0 [] 0
    (C.sha256 ((C.marshal (C.hashToCurve (pad32 m))).take 32
      ++ C.marshal (C.smul (x % C.N) (C.hashToCurve (pad32 m))))) hget
  simp only [List.append_nil] at hver
  have hcs : verCsum C.N s rnd (sigC C r x m s rnd ri) 0 r.PubKeys.length 0 % C.N
      = bytesToInt (sigChain C r x m s rnd ri) % C.N := by
    rw [verCsum_emod, ctSum_split s rnd _ r.PubKeys.length 0 (by omega) (by omega),
      zero_add, add_comm (decoySum s rnd 0 r.PubKeys.length) (sigC C r x m s rnd ri)]
    simp only [sigC]
    rw [sub_emod_add_emod C.N (bytesToInt (sigChain C r x m s rnd ri) % C.N)
      (decoySum s rnd 0 r.PubKeys.length), emod_self_emod]
  simp only [sigChain] at hcs
  rw [Signature_eq C r x m s rnd ri hs, Option.some_bind]
  simp only [Ring.VerifySignature]
  rw [hver]
  simp only [hcs, beq_self_eq_true, Option.map_some']

/-- C1, witness: a concrete one-member ring with secret 1, a 32-byte zero
message and fixed draws signs and verifies on the concrete model. -/
theorem ring_signature_complete_witness :
    (((⟨[((1 : ZMod 5), true)], []⟩ : Ring CPoint).Signature concreteModel 1
        (List.replicate 32 0) 0 (fun _ => (1, 1)) 2).bind fun q =>
      ((⟨[((1 : ZMod 5), true)], []⟩ : Ring CPoint).VerifySignature concreteModel
        (List.replicate 32 0) q.1).map Prod.fst) = some true :=
  ring_signature_complete CPoint concreteModel ⟨[((1 : ZMod 5), true)], []⟩ 0
    (List.replicate 32 0) 1 (fun _ => (1, 1)) 2 (by decide) (by decide) (by decide)
    (by decide)

end Aploune
